import Mathlib

/-!
Verification development for the `mandelbrot` renderer.

The Rust source (`src/mandelbrot.rs`, `src/main.rs`, `src/util.rs`) is shallowly
embedded here.  `f32` values are modelled as exact rationals (`ℚ`): every
floating-point operation of the source becomes the corresponding exact field
operation, and the Rust float-to-integer `as` casts (truncation toward zero,
saturating) are modelled explicitly.  Machine integers (`u8`, `u32`) become `ℕ`
with explicit saturation where the cast demands it; bitwise masking and shifting
are `Nat.land` / `Nat.shiftRight`, exactly as in the source.
-/

namespace Mandelbrot

/-- An RGB byte triple, modelling `image::Rgb<u8>`. -/
abbrev Rgb : Type := ℕ × ℕ × ℕ

/-- A complex number, modelling `num::complex::Complex<f32>` as a pair
(re, im) of exact rationals. -/
abbrev C : Type := ℚ × ℚ

/-- Complex multiplication, as performed by `num`'s `Complex` arithmetic. -/
def cmul (z w : C) : C := (z.1 * w.1 - z.2 * w.2, z.1 * w.2 + z.2 * w.1)

/-- Complex addition. -/
def cadd (z w : C) : C := (z.1 + w.1, z.2 + w.2)

/-- `fn mandelbrot(z, c) -> Complex<f32>` = `num::pow(z, 2) + c`
(`num::pow(z, 2)` is `z * z` by repeated multiplication). -/
def mandelbrot (z c : C) : C := cadd (cmul z z) c

/-- The loop of `in_mandelbrot_set`: `fuel` counts the remaining trips of
`for i in 0..iterations`, `z` is the mutable orbit variable and `i` the loop
index.  Each trip first tests `z.re^2 + z.im^2 > 4.0` and returns
`(false, i)` on escape, otherwise advances `z` to `mandelbrot(z, c)`.
When the loop completes, the function returns `(true, iterations)`;
here `i` has reached the original `iterations`. -/
def inMandelbrotSetGo (c : C) : ℕ → C → ℕ → Bool × ℕ
  | 0, _, i => (true, i)
  | fuel + 1, z, i =>
    if z.1 ^ 2 + z.2 ^ 2 > 4 then (false, i)
    else inMandelbrotSetGo c fuel (mandelbrot z c) (i + 1)

/-- `fn in_mandelbrot_set(c: Complex<f32>, iterations: u32) -> (bool, u32)`:
starts with `z = c` and loop index `0`.  The first component is `true` when
the point is (still) considered in the set, `false` when it escaped. -/
def in_mandelbrot_set (c : C) (iterations : ℕ) : Bool × ℕ :=
  inMandelbrotSetGo c iterations c 0

/-- The spec's `EscapeResult`: `escaped` is the negation of the first
component of `in_mandelbrot_set`'s result, `iterations_survived` the second. -/
structure EscapeResult where
  escaped : Bool
  iterations_survived : ℕ
  deriving DecidableEq, Repr

/-- The spec's `evaluate(c, budget) -> EscapeResult` interface, realized by
`in_mandelbrot_set` (whose boolean means "in the set", i.e. not escaped). -/
def evaluate (c : C) (budget : ℕ) : EscapeResult :=
  let r := in_mandelbrot_set c budget
  ⟨!r.1, r.2⟩

/-- The escape test of the loop, on a single orbit value. -/
def escapeTest (z : C) : Prop := z.1 ^ 2 + z.2 ^ 2 > 4

instance (z : C) : Decidable (escapeTest z) :=
  inferInstanceAs (Decidable (_ > _))

/-- The orbit `z_0 = c`, `z_{n+1} = z_n^2 + c` of the escape recurrence. -/
def orbit (c : C) : ℕ → C
  | 0 => c
  | n + 1 => mandelbrot (orbit c n) c

/-- Rust `as u8` on a float: truncation toward zero, saturating at the
bounds of `u8` (values below `0` clamp to `0`, above `255` to `255`). -/
def f32AsU8 (q : ℚ) : ℕ := min 255 (⌊q⌋).toNat

/-- Rust `as u32` on a float: truncation toward zero, saturating at the
bounds of `u32`. -/
def f32AsU32 (q : ℚ) : ℕ := min 4294967295 (⌊q⌋).toNat

/-- `fn get_greyscale_pixel(ratio: f32) -> image::Rgb<u8>`:
`let color = (ratio * 255.0) as u8;` repeated on all three channels. -/
def get_greyscale_pixel (ratio : ℚ) : Rgb :=
  let color := f32AsU8 (ratio * 255)
  (color, color, color)

/-- `fn get_color_pixel(ratio: f32) -> image::Rgb<u8>`:
`let color_value = (ratio * 0xFFFFFF as f32) as u32;` then byte extraction
by masking and shifting. -/
def get_color_pixel (ratio : ℚ) : Rgb :=
  let cv := f32AsU32 (ratio * 16777215)
  ((cv &&& 0xFF0000) >>> 16, (cv &&& 0x00FF00) >>> 8, cv &&& 0x0000FF)

/-- `fn get_mandelbrot_color(c, iterations, color) -> image::Rgb<u8>`:
black for an in-set point, otherwise one of the two policies applied to
`iterations_taken as f32 / iterations as f32`. -/
def get_mandelbrot_color (c : C) (iterations : ℕ) (color : Bool) : Rgb :=
  let r := in_mandelbrot_set c iterations
  if r.1 then (0, 0, 0)
  else if color then get_color_pixel ((r.2 : ℚ) / (iterations : ℚ))
  else get_greyscale_pixel ((r.2 : ℚ) / (iterations : ℚ))

/-- The complex point computed for pixel `(x, y)` inside the worker closure of
`main`:
`Complex::new(((x as f32 * r / width as f32) - r / 2.0) + center.0,
              -((y as f32 * r / height as f32) - r / 2.0) + center.1)`. -/
def planeMap (x y w h : ℕ) (r cx cy : ℚ) : C :=
  (((x : ℚ) * r / (w : ℚ) - r / 2) + cx, -((y : ℚ) * r / (h : ℚ) - r / 2) + cy)

/-- The plane-mapping formula as the spec writes it:
`re = (x / width) * radius - radius/2 + center.re`,
`im = -((y / height) * radius - radius/2) + center.im`.
Stated separately so its agreement with `planeMap` is a theorem. -/
def planeMapSpec (x y w h : ℕ) (r cx cy : ℚ) : C :=
  (((x : ℚ) / (w : ℚ)) * r - r / 2 + cx, -(((y : ℚ) / (h : ℚ)) * r - r / 2) + cy)

/-- `struct MandelbrotPoint { x: u32, y: u32, color: image::Rgb<u8> }` —
the unit of work result sent from a worker to the collector. -/
structure MandelbrotPoint where
  x : ℕ
  y : ℕ
  color : Rgb
  deriving DecidableEq, Repr

/-- The multiset of points produced by the dispatch loop of `main`
(`for x in 0..width { for y in 0..height { pool.execute(...) } }`), listed in
dispatch order: one `MandelbrotPoint` per pixel, whose color runs the full
Mapper → Evaluator → Color Policy pipeline. -/
def renderPoints (w h : ℕ) (r cx cy : ℚ) (iterations : ℕ) (color : Bool) :
    List MandelbrotPoint :=
  (List.range w).flatMap fun x =>
    (List.range h).map fun y =>
      ⟨x, y, get_mandelbrot_color (planeMap x y w h r cx cy) iterations color⟩

/-- The output buffer, `image::ImageBuffer` viewed as a map from pixel
coordinates to colors. -/
abbrev Buffer : Type := ℕ × ℕ → Rgb

/-- `image::ImageBuffer::new(width, height)` zero-initializes every pixel. -/
def initBuffer : Buffer := fun _ => (0, 0, 0)

/-- `imgbuf.put_pixel(x, y, color)`. -/
def putPixel (buf : Buffer) (x y : ℕ) (c : Rgb) : Buffer :=
  fun q => if q = (x, y) then c else buf q

/-- One step of the collector loop body:
`if point.color != image::Rgb([0, 0, 0]) { imgbuf.put_pixel(point.x, point.y, point.color) }`. -/
def collectStep (buf : Buffer) (p : MandelbrotPoint) : Buffer :=
  if p.color ≠ (0, 0, 0) then putPixel buf p.x p.y p.color else buf

/-- The collector loop `rx.iter().take(width * height).for_each(...)`, run on
an arbitrary arrival order `l` of the rendered points. -/
def collect (l : List MandelbrotPoint) (buf : Buffer) : Buffer :=
  l.foldl collectStep buf

/-- How many times the collector calls `put_pixel` on coordinate `q` while
consuming arrival list `l`: once per point at `q` whose color is not black. -/
def writeCount (l : List MandelbrotPoint) (q : ℕ × ℕ) : ℕ :=
  l.countP fun p => decide ((p.x, p.y) = q ∧ p.color ≠ (0, 0, 0))

/-- The loop variable of `in_mandelbrot_set` after `n` trips is `orbit c n`. -/
theorem orbit_succ (c : C) (n : ℕ) : orbit c (n + 1) = mandelbrot (orbit c n) c := rfl

/-- If no orbit value in the window `[i, i + fuel)` trips the escape test, the
loop runs out of fuel and reports the point as in the set. -/
theorem inMandelbrotSetGo_of_no_escape (c : C) (fuel : ℕ) :
    ∀ i, (∀ j, i ≤ j → j < i + fuel → ¬ escapeTest (orbit c j)) →
      inMandelbrotSetGo c fuel (orbit c i) i = (true, i + fuel) := by
  induction fuel with
  | zero => intro i _; rfl
  | succ fuel ih =>
    intro i h
    have hi : ¬ escapeTest (orbit c i) := h i le_rfl (by omega)
    have : inMandelbrotSetGo c (fuel + 1) (orbit c i) i
        = inMandelbrotSetGo c fuel (orbit c (i + 1)) (i + 1) := by
      simp only [inMandelbrotSetGo, orbit_succ]
      rw [if_neg (by simpa [escapeTest] using hi)]
    rw [this, ih (i + 1) (fun j h1 h2 => h j (by omega) (by omega))]
    congr 1
    omega

/-- If `k` is the first index at or after `i` whose orbit value trips the
escape test, and `k` is within the fuel window, the loop exits early at `k`. -/
theorem inMandelbrotSetGo_of_escape (c : C) (fuel : ℕ) :
    ∀ i k, i ≤ k → k < i + fuel → escapeTest (orbit c k) →
      (∀ j, i ≤ j → j < k → ¬ escapeTest (orbit c j)) →
      inMandelbrotSetGo c fuel (orbit c i) i = (false, k) := by
  induction fuel with
  | zero => intro i k h1 h2 _ _; omega
  | succ fuel ih =>
    intro i k h1 h2 hesc hmin
    rcases eq_or_lt_of_le h1 with rfl | hik
    · simp only [inMandelbrotSetGo]
      rw [if_pos (by simpa [escapeTest] using hesc)]
    · have hi : ¬ escapeTest (orbit c i) := hmin i le_rfl hik
      have : inMandelbrotSetGo c (fuel + 1) (orbit c i) i
          = inMandelbrotSetGo c fuel (orbit c (i + 1)) (i + 1) := by
        simp only [inMandelbrotSetGo, orbit_succ]
        rw [if_neg (by simpa [escapeTest] using hi)]
      rw [this]
      exact ih (i + 1) k (by omega) (by omega) hesc
        (fun j hj1 hj2 => hmin j (by omega) hj2)

/-- The loop either runs to completion, reporting `(true, i + fuel)`, or
exits early at some index in the fuel window, reporting `(false, k)`. -/
theorem inMandelbrotSetGo_cases (c : C) (fuel : ℕ) :
    ∀ z i, inMandelbrotSetGo c fuel z i = (true, i + fuel) ∨
      ∃ k, i ≤ k ∧ k < i + fuel ∧ inMandelbrotSetGo c fuel z i = (false, k) := by
  induction fuel with
  | zero => intro z i; left; rfl
  | succ fuel ih =>
    intro z i
    by_cases h : z.1 ^ 2 + z.2 ^ 2 > 4
    · right
      exact ⟨i, le_rfl, by omega, by simp only [inMandelbrotSetGo]; rw [if_pos h]⟩
    · have hstep : inMandelbrotSetGo c (fuel + 1) z i
          = inMandelbrotSetGo c fuel (mandelbrot z c) (i + 1) := by
        simp only [inMandelbrotSetGo]
        rw [if_neg h]
      rcases ih (mandelbrot z c) (i + 1) with h1 | ⟨k, hk1, hk2, hk3⟩
      · left; rw [hstep, h1]; congr 1; omega
      · right; exact ⟨k, by omega, by omega, by rw [hstep, hk3]⟩

/-- Claim C1: for every complex point `c` and budget `> 0`, the evaluator
iterates `z_0 = c`, `z_{n+1} = z_n^2 + c`, testing `re^2 + im^2 > 4` at each
step; if the test first trips at iteration `i < budget`, it returns
`escaped = true` with `iterations_survived = i` (never continuing past the
first escape), and if no escape occurs within `budget` iterations it returns
`escaped = false` with `iterations_survived = budget`. -/
theorem evaluate_first_escape_spec (c : C) (budget : ℕ) (_hb : 0 < budget) :
    (∀ i, i < budget → escapeTest (orbit c i) →
      (∀ j, j < i → ¬ escapeTest (orbit c j)) →
      evaluate c budget = ⟨true, i⟩) ∧
    ((∀ i, i < budget → ¬ escapeTest (orbit c i)) →
      evaluate c budget = ⟨false, budget⟩) := by
  constructor
  · intro i hi hesc hmin
    have h : in_mandelbrot_set c budget = (false, i) := by
      have := inMandelbrotSetGo_of_escape c budget 0 i (Nat.zero_le i)
        (by omega) hesc (fun j _ hj => hmin j hj)
      simpa [in_mandelbrot_set, orbit] using this
    simp [evaluate, h]
  · intro hno
    have h : in_mandelbrot_set c budget = (true, budget) := by
      have := inMandelbrotSetGo_of_no_escape c budget 0
        (fun j _ hj => hno j (by omega))
      simpa [in_mandelbrot_set, orbit] using this
    simp [evaluate, h]

/-- Witness for C1, on both branches: the point `3 + 0i` trips the test at
iteration `0` of a budget of `2`, and the origin never trips it. -/
theorem evaluate_first_escape_spec_witness :
    evaluate (3, 0) 2 = ⟨true, 0⟩ :=
  (evaluate_first_escape_spec (3, 0) 2 (by norm_num)).1 0 (by norm_num)
    (by norm_num [escapeTest, orbit]) (fun j hj => absurd hj (by omega))

/-- Claim C8: the escape result satisfies `iterations_survived ≤ budget`;
`escaped = false` forces `iterations_survived = budget`, `escaped = true`
forces `iterations_survived < budget`, so the escape ratio lies in `[0, 1)`. -/
theorem evaluate_result_invariant (c : C) (budget : ℕ) (hb : 0 < budget) :
    (evaluate c budget).iterations_survived ≤ budget ∧
    ((evaluate c budget).escaped = false →
      (evaluate c budget).iterations_survived = budget) ∧
    ((evaluate c budget).escaped = true →
      (evaluate c budget).iterations_survived < budget) ∧
    ((evaluate c budget).escaped = true →
      0 ≤ ((evaluate c budget).iterations_survived : ℚ) / (budget : ℚ) ∧
      ((evaluate c budget).iterations_survived : ℚ) / (budget : ℚ) < 1) := by
  rcases inMandelbrotSetGo_cases c budget c 0 with h | ⟨k, _, hk2, hk3⟩
  · have he : evaluate c budget = ⟨false, budget⟩ := by
      simp [evaluate, in_mandelbrot_set, h]
    rw [he]
    refine ⟨le_rfl, fun _ => rfl, by simp, by simp⟩
  · have he : evaluate c budget = ⟨true, k⟩ := by
      simp [evaluate, in_mandelbrot_set, hk3]
    rw [he]
    refine ⟨by simpa using Nat.le_of_lt (by omega), by simp, fun _ => by simpa using hk2,
      fun _ => ⟨by positivity, ?_⟩⟩
    rw [div_lt_one (by exact_mod_cast hb)]
    exact_mod_cast (by omega : k < budget)

/-- Witness for C8 at `c = 2 + 0i`, `budget = 2`. -/
theorem evaluate_result_invariant_witness :
    (evaluate (2, 0) 2).iterations_survived ≤ 2 ∧
    ((evaluate (2, 0) 2).escaped = false →
      (evaluate (2, 0) 2).iterations_survived = 2) ∧
    ((evaluate (2, 0) 2).escaped = true →
      (evaluate (2, 0) 2).iterations_survived < 2) ∧
    ((evaluate (2, 0) 2).escaped = true →
      0 ≤ ((evaluate (2, 0) 2).iterations_survived : ℚ) / (2 : ℚ) ∧
      ((evaluate (2, 0) 2).iterations_survived : ℚ) / (2 : ℚ) < 1) :=
  evaluate_result_invariant (2, 0) 2 (by norm_num)

/-- The orbit of the origin is constantly the origin. -/
theorem orbit_origin (n : ℕ) : orbit (0, 0) n = (0, 0) := by
  induction n with
  | zero => rfl
  | succ n ih => rw [orbit_succ, ih]; norm_num [mandelbrot, cmul, cadd]

/-- Claim C9: for `c = 0 + 0i` and every budget `> 0`, the evaluator returns
`escaped = false`: the origin never escapes, for any iteration budget. -/
theorem evaluate_origin_never_escapes (budget : ℕ) (_hb : 0 < budget) :
    (evaluate (0, 0) budget).escaped = false := by
  have h : in_mandelbrot_set (0, 0) budget = (true, budget) := by
    have := inMandelbrotSetGo_of_no_escape (0, 0) budget 0
      (fun j _ _ => by rw [orbit_origin]; norm_num [escapeTest])
    simpa [in_mandelbrot_set, orbit] using this
  show (!(in_mandelbrot_set (0, 0) budget).1) = false
  rw [h]
  rfl

/-- Witness for C9 at `budget = 5`. -/
theorem evaluate_origin_never_escapes_witness :
    (evaluate (0, 0) 5).escaped = false :=
  evaluate_origin_never_escapes 5 (by norm_num)

/-- Claim C10: with a budget of `0` iterations, the loop body never runs, so
`in_mandelbrot_set` reports every point as in the set having survived `0`
iterations, and the coloring pipeline paints every pixel with the in-set
black sentinel, in both color modes. -/
theorem zero_budget_all_black (c : C) (mode : Bool) :
    in_mandelbrot_set c 0 = (true, 0) ∧
    evaluate c 0 = ⟨false, 0⟩ ∧
    get_mandelbrot_color c 0 mode = (0, 0, 0) := by
  refine ⟨rfl, rfl, ?_⟩
  simp [get_mandelbrot_color, in_mandelbrot_set, inMandelbrotSetGo]

/-- Claim C2: the worker closure computes exactly the spec's plane-mapping
formula `re = (x / width) * radius - radius/2 + center.re`,
`im = -((y / height) * radius - radius/2) + center.im` (the source writes the
scale as `x * radius / width`, equal in exact arithmetic), and increasing `y`
strictly decreases the imaginary part. -/
theorem planeMap_matches_spec_formula (x y w h : ℕ) (r cx cy : ℚ)
    (_hx : x < w) (hy : y < h) (hr : 0 < r) :
    planeMap x y w h r cx cy = planeMapSpec x y w h r cx cy ∧
    ∀ y2, y < y2 → y2 < h →
      (planeMap x y2 w h r cx cy).2 < (planeMap x y w h r cx cy).2 := by
  constructor
  · simp only [planeMap, planeMapSpec, Prod.mk.injEq]
    constructor <;> ring
  · intro y2 hy2 _
    simp only [planeMap]
    have hyq : (y : ℚ) < (y2 : ℚ) := by exact_mod_cast hy2
    have hh : (0 : ℚ) < (h : ℚ) := by exact_mod_cast (show 0 < h by omega)
    have hlt : (y : ℚ) * r / (h : ℚ) < (y2 : ℚ) * r / (h : ℚ) := by gcongr
    linarith

/-- Witness for C2 at `x = 0`, `y = 0`, `width = 1`, `height = 2`,
`radius = 1`, `center = (0, 0)`, with the monotonicity part used at `y2 = 1`. -/
theorem planeMap_matches_spec_formula_witness :
    planeMap 0 0 1 2 1 0 0 = planeMapSpec 0 0 1 2 1 0 0 ∧
    (planeMap 0 1 1 2 1 0 0).2 < (planeMap 0 0 1 2 1 0 0).2 := by
  have h := planeMap_matches_spec_formula 0 0 1 2 1 0 0 (by norm_num) (by norm_num)
    (by norm_num)
  exact ⟨h.1, h.2 1 (by norm_num) (by norm_num)⟩

/-- An escape ratio `i / n` with `i < n` scaled by a positive constant `m`
truncates to a value strictly below `m`. -/
theorem floor_scaled_lt (i n m : ℕ) (h : i < n) (hm : 0 < m) :
    (⌊(i : ℚ) / (n : ℚ) * (m : ℚ)⌋).toNat < m := by
  have h1 : (i : ℚ) / (n : ℚ) < 1 := by
    rw [div_lt_one (by exact_mod_cast (show 0 < n by omega))]
    exact_mod_cast h
  have h2 : ⌊(i : ℚ) / (n : ℚ) * (m : ℚ)⌋ < (m : ℤ) := by
    rw [Int.floor_lt]
    push_cast
    nlinarith [show (0 : ℚ) < (m : ℚ) by exact_mod_cast hm]
  omega

/-- `get_greyscale_pixel` on an escape ratio: the level is the truncation
(floor) of `ratio * 255`, the `as u8` saturation never engaging. -/
theorem get_greyscale_pixel_ratio (i n : ℕ) (h : i < n) :
    get_greyscale_pixel ((i : ℚ) / (n : ℚ)) =
      ((⌊(i : ℚ) / (n : ℚ) * 255⌋).toNat, (⌊(i : ℚ) / (n : ℚ) * 255⌋).toNat,
        (⌊(i : ℚ) / (n : ℚ) * 255⌋).toNat) := by
  have hlt := floor_scaled_lt i n 255 h (by norm_num)
  push_cast at hlt
  simp only [get_greyscale_pixel, f32AsU8]
  rw [min_eq_right (by omega)]

/-- Claim C5 (amended): for every escaped result with
`ratio = iterations_survived / budget`, the Grayscale policy returns
`(level, level, level)` where `level = trunc(ratio * 255)` — truncation
toward zero as performed by Rust's `as u8` cast, not rounding to nearest. -/
theorem greyscale_level_is_truncation (i n : ℕ) (h : i < n) :
    get_greyscale_pixel ((i : ℚ) / (n : ℚ)) =
      ((⌊(i : ℚ) / (n : ℚ) * 255⌋).toNat, (⌊(i : ℚ) / (n : ℚ) * 255⌋).toNat,
        (⌊(i : ℚ) / (n : ℚ) * 255⌋).toNat) :=
  get_greyscale_pixel_ratio i n h

/-- Witness for the amended C5 at `iterations_survived = 1`, `budget = 2`. -/
theorem greyscale_level_is_truncation_witness :
    get_greyscale_pixel ((1 : ℚ) / (2 : ℚ)) =
      ((⌊(1 : ℚ) / (2 : ℚ) * 255⌋).toNat, (⌊(1 : ℚ) / (2 : ℚ) * 255⌋).toNat,
        (⌊(1 : ℚ) / (2 : ℚ) * 255⌋).toNat) :=
  greyscale_level_is_truncation 1 2 (by norm_num)

/-- Counterexample to C5 as stated: the escaped result
`{escaped: true, iterations_survived: 1}` under budget `2` (produced, e.g.,
for `c = 2 + 0i`) has ratio `1/2`; `round(1/2 * 255) = round(127.5) = 128`,
but the code truncates and returns level `127`. -/
theorem greyscale_round_counterexample :
    evaluate (2, 0) 2 = ⟨true, 1⟩ ∧
    round (((1 : ℚ) / 2) * 255) = 128 ∧
    get_greyscale_pixel ((1 : ℚ) / 2) ≠
      ((round (((1 : ℚ) / 2) * 255)).toNat, (round (((1 : ℚ) / 2) * 255)).toNat,
        (round (((1 : ℚ) / 2) * 255)).toNat) := by
  refine ⟨?_, ?_, ?_⟩
  · norm_num [evaluate, in_mandelbrot_set, inMandelbrotSetGo, mandelbrot, cmul, cadd]
  · norm_num [round_eq, Int.floor_eq_iff]
  · have h1 : get_greyscale_pixel ((1 : ℚ) / 2) = (127, 127, 127) := by
      norm_num [get_greyscale_pixel, f32AsU8, Int.floor_eq_iff]
      decide
    have h2 : round (((1 : ℚ) / 2) * 255) = 128 := by
      norm_num [round_eq, Int.floor_eq_iff]
    rw [h1, h2]
    decide

/-- Extracting a byte field by masking with `0xFF <<< s` and shifting right
by `s` is the arithmetic byte `v / 2^s % 2^8`. -/
theorem land_mask_shiftRight (v s : ℕ) :
    (v &&& (2 ^ 8 - 1) <<< s) >>> s = v / 2 ^ s % 2 ^ 8 := by
  apply Nat.eq_of_testBit_eq
  intro j
  rw [Nat.testBit_shiftRight, Nat.testBit_land, Nat.testBit_shiftLeft,
    Nat.testBit_two_pow_sub_one, Nat.testBit_mod_two_pow,
    ← Nat.shiftRight_eq_div_pow, Nat.testBit_shiftRight]
  simp [show s + j - s = j from by omega, show s ≤ s + j from by omega,
    Bool.and_comm]

/-- `get_color_pixel` on an escape ratio: the color value is the truncation
of `ratio * 0xFFFFFF`, it fits in 24 bits (the `as u32` saturation never
engaging), and the channels are its three bytes, high to low. -/
theorem get_color_pixel_ratio (i n : ℕ) (h : i < n) :
    (⌊(i : ℚ) / (n : ℚ) * 16777215⌋).toNat < 2 ^ 24 ∧
    get_color_pixel ((i : ℚ) / (n : ℚ)) =
      ((⌊(i : ℚ) / (n : ℚ) * 16777215⌋).toNat / 2 ^ 16,
        (⌊(i : ℚ) / (n : ℚ) * 16777215⌋).toNat / 2 ^ 8 % 2 ^ 8,
        (⌊(i : ℚ) / (n : ℚ) * 16777215⌋).toNat % 2 ^ 8) := by
  have hlt := floor_scaled_lt i n 16777215 h (by norm_num)
  push_cast at hlt
  refine ⟨by omega, ?_⟩
  simp only [get_color_pixel, f32AsU32]
  rw [min_eq_right (by omega)]
  set v := (⌊(i : ℚ) / (n : ℚ) * 16777215⌋).toNat with hv
  have e1 : (16711680 : ℕ) = (2 ^ 8 - 1) <<< 16 := by decide
  have e2 : (65280 : ℕ) = (2 ^ 8 - 1) <<< 8 := by decide
  have e3 : v &&& 255 = v % 2 ^ 8 := by
    have h2 := Nat.and_pow_two_sub_one_eq_mod v 8
    norm_num at h2 ⊢
    exact h2
  rw [e1, e2, land_mask_shiftRight, land_mask_shiftRight, e3]
  have e4 : v / 2 ^ 16 % 2 ^ 8 = v / 2 ^ 16 := Nat.mod_eq_of_lt (by omega)
  rw [e4]

/-- Claim C6 (amended): for every escaped result with
`ratio = iterations_survived / budget`, the Spectrum policy computes
`trunc(ratio * 0xFFFFFF)` — truncation toward zero as performed by Rust's
`as u32` cast, not rounding to nearest — as a 24-bit RGB integer `v` and
returns the color with R = bits 16-23, G = bits 8-15, B = bits 0-7 of `v`. -/
theorem spectrum_bytes_of_truncation (i n : ℕ) (h : i < n) (v : ℕ)
    (hv : v = (⌊(i : ℚ) / (n : ℚ) * 16777215⌋).toNat) :
    v < 2 ^ 24 ∧
    get_color_pixel ((i : ℚ) / (n : ℚ)) =
      (v / 2 ^ 16, v / 2 ^ 8 % 2 ^ 8, v % 2 ^ 8) := by
  subst hv
  exact get_color_pixel_ratio i n h

/-- Witness for the amended C6 at `iterations_survived = 1`, `budget = 2`:
`trunc(0.5 * 0xFFFFFF) = 0x7FFFFF`, whose bytes are `(127, 255, 255)`. -/
theorem spectrum_bytes_of_truncation_witness :
    (8388607 : ℕ) < 2 ^ 24 ∧
    get_color_pixel ((1 : ℚ) / (2 : ℚ)) =
      (8388607 / 2 ^ 16, 8388607 / 2 ^ 8 % 2 ^ 8, 8388607 % 2 ^ 8) :=
  spectrum_bytes_of_truncation 1 2 (by norm_num) 8388607
    (by norm_num [Int.floor_eq_iff]; decide)

/-- Counterexample to C6 as stated: the escaped result
`{escaped: true, iterations_survived: 1}` under budget `2` (produced, e.g.,
for `c = 2 + 0i`) has ratio `1/2`; `round(1/2 * 0xFFFFFF) = 8388608 =
0x800000`, whose bytes are `(128, 0, 0)`, but the code truncates
`8388607.5` to `0x7FFFFF` and returns `(127, 255, 255)`. -/
theorem spectrum_round_counterexample :
    evaluate (2, 0) 2 = ⟨true, 1⟩ ∧
    round (((1 : ℚ) / 2) * 16777215) = 8388608 ∧
    get_color_pixel ((1 : ℚ) / 2) ≠
      ((((round (((1 : ℚ) / 2) * 16777215)).toNat &&& 0xFF0000) >>> 16,
        ((round (((1 : ℚ) / 2) * 16777215)).toNat &&& 0x00FF00) >>> 8,
        (round (((1 : ℚ) / 2) * 16777215)).toNat &&& 0x0000FF)) := by
  have h2 : round (((1 : ℚ) / 2) * 16777215) = 8388608 := by
    norm_num [round_eq, Int.floor_eq_iff]
  refine ⟨?_, h2, ?_⟩
  · norm_num [evaluate, in_mandelbrot_set, inMandelbrotSetGo, mandelbrot, cmul, cadd]
  · have h1 : get_color_pixel ((1 : ℚ) / 2) = (127, 255, 255) := by
      norm_num [get_color_pixel, f32AsU32, Int.floor_eq_iff]
      decide
    rw [h1, h2]
    decide

/-- Claim C4 (amended): in both color modes, an in-set point
(`escaped = false`) is always colored pure black; but the converse of the
claim fails: an escaped point is colored pure black exactly when the
truncated scaled ratio (`trunc(ratio * 255)` in grayscale,
`trunc(ratio * 0xFFFFFF)` in spectrum) is `0`. -/
theorem black_sentinel_of_in_set (c : C) (n : ℕ) (hn : 0 < n) (mode : Bool) :
    ((evaluate c n).escaped = false → get_mandelbrot_color c n mode = (0, 0, 0)) ∧
    ((evaluate c n).escaped = true →
      (get_mandelbrot_color c n mode = (0, 0, 0) ↔
        ⌊((evaluate c n).iterations_survived : ℚ) / (n : ℚ) *
          (cond mode 16777215 255 : ℚ)⌋ = 0)) := by
  rcases inMandelbrotSetGo_cases c n c 0 with hcase | ⟨k, _, hk2, hcase⟩
  · have hr : in_mandelbrot_set c n = (true, 0 + n) := by
      simpa [in_mandelbrot_set] using hcase
    have he : (evaluate c n).escaped = false := by simp [evaluate, hr]
    refine ⟨fun _ => by simp [get_mandelbrot_color, hr], fun h => ?_⟩
    rw [he] at h
    cases h
  · have hk : k < n := by omega
    have hr : in_mandelbrot_set c n = (false, k) := by
      simpa [in_mandelbrot_set] using hcase
    have he : (evaluate c n).escaped = true := by simp [evaluate, hr]
    have hi : (evaluate c n).iterations_survived = k := by simp [evaluate, hr]
    have hfnn : 0 ≤ ⌊(k : ℚ) / (n : ℚ) * (cond mode 16777215 255 : ℚ)⌋ :=
      Int.floor_nonneg.mpr (by cases mode <;> simp <;> positivity)
    constructor
    · intro h
      rw [he] at h
      cases h
    intro _
    rw [hi]
    cases mode
    · rw [show get_mandelbrot_color c n false = get_greyscale_pixel ((k : ℚ) / (n : ℚ))
        from by simp [get_mandelbrot_color, hr]]
      rw [get_greyscale_pixel_ratio k n hk]
      simp only [cond] at hfnn ⊢
      constructor
      · intro hb
        rw [Prod.mk.injEq, Prod.mk.injEq] at hb
        omega
      · intro hf
        rw [hf]
        rfl
    · obtain ⟨hv24, hcp⟩ := get_color_pixel_ratio k n hk
      rw [show get_mandelbrot_color c n true = get_color_pixel ((k : ℚ) / (n : ℚ))
        from by simp [get_mandelbrot_color, hr]]
      rw [hcp]
      simp only [cond] at hfnn ⊢
      constructor
      · intro hb
        rw [Prod.mk.injEq, Prod.mk.injEq] at hb
        omega
      · intro hf
        rw [hf]
        rfl

/-- Witness for the amended C4 at `c = 3 + 0i`, `budget = 1`,
spectrum mode: the point escapes at iteration `0` and is colored pure black
because the truncated scaled ratio is `0`. -/
theorem black_sentinel_of_in_set_witness :
    ((evaluate (3, 0) 1).escaped = false →
      get_mandelbrot_color (3, 0) 1 true = (0, 0, 0)) ∧
    ((evaluate (3, 0) 1).escaped = true →
      (get_mandelbrot_color (3, 0) 1 true = (0, 0, 0) ↔
        ⌊((evaluate (3, 0) 1).iterations_survived : ℚ) / (1 : ℚ) *
          (cond true 16777215 255 : ℚ)⌋ = 0)) :=
  black_sentinel_of_in_set (3, 0) 1 (by norm_num) true

/-- Counterexample to C4 as stated: for `c = 3 + 0i` and budget `1` the
evaluator reports an escape (at iteration `0`), yet both color policies
return pure black `(0, 0, 0)` for it — black is not emitted only via the
in-set sentinel. -/
theorem escaped_point_colored_black :
    (evaluate (3, 0) 1).escaped = true ∧
    get_mandelbrot_color (3, 0) 1 true = (0, 0, 0) ∧
    get_mandelbrot_color (3, 0) 1 false = (0, 0, 0) := by
  refine ⟨?_, ?_, ?_⟩
  · norm_num [evaluate, in_mandelbrot_set, inMandelbrotSetGo]
  · norm_num [get_mandelbrot_color, in_mandelbrot_set, inMandelbrotSetGo,
      get_color_pixel, f32AsU32]
  · norm_num [get_mandelbrot_color, in_mandelbrot_set, inMandelbrotSetGo,
      get_greyscale_pixel, f32AsU8]

/-- The pixel coordinate carried by a rendered point. -/
def coordOf (p : MandelbrotPoint) : ℕ × ℕ := (p.x, p.y)

/-- A collector step leaves every coordinate other than the point's own
untouched. -/
theorem collectStep_ne (buf : Buffer) (p : MandelbrotPoint) (q : ℕ × ℕ)
    (h : coordOf p ≠ q) : collectStep buf p q = buf q := by
  unfold collectStep putPixel
  split
  · exact if_neg (fun hq => h hq.symm)
  · rfl

/-- Unfolding the collector one arrival at a time. -/
theorem collect_cons (a : MandelbrotPoint) (t : List MandelbrotPoint)
    (buf : Buffer) : collect (a :: t) buf = collect t (collectStep buf a) := rfl

/-- If no point of the arrival list carries coordinate `q`, the collector
leaves the buffer value at `q` unchanged. -/
theorem collect_eval_of_not_mem (l : List MandelbrotPoint) :
    ∀ (buf : Buffer) (q : ℕ × ℕ), (∀ p ∈ l, coordOf p ≠ q) →
      collect l buf q = buf q := by
  induction l with
  | nil => intro buf q _; rfl
  | cons a t ih =>
    intro buf q h
    rw [collect_cons, ih (collectStep buf a) q
      (fun p hp => h p (List.mem_cons_of_mem a hp))]
    exact collectStep_ne buf a q (h a (List.mem_cons_self a t))

/-- The collector's final value at `q` depends on the starting buffer only
through its value at `q`. -/
theorem collect_eval_congr (l : List MandelbrotPoint) :
    ∀ (buf1 buf2 : Buffer) (q : ℕ × ℕ), buf1 q = buf2 q →
      collect l buf1 q = collect l buf2 q := by
  induction l with
  | nil => intro buf1 buf2 q h; exact h
  | cons a t ih =>
    intro buf1 buf2 q h
    rw [collect_cons, collect_cons]
    apply ih
    show collectStep buf1 a q = collectStep buf2 a q
    unfold collectStep
    by_cases hc : a.color = (0, 0, 0)
    · rw [if_neg (not_not_intro hc), if_neg (not_not_intro hc)]
      exact h
    · rw [if_pos hc, if_pos hc]
      show (if q = (a.x, a.y) then a.color else buf1 q)
          = (if q = (a.x, a.y) then a.color else buf2 q)
      by_cases hq : q = (a.x, a.y)
      · rw [if_pos hq, if_pos hq]
      · rw [if_neg hq, if_neg hq]
        exact h

/-- Characterization of the collector on an arrival list whose coordinates
are pairwise distinct: at the coordinate of a point `p` of the list, the
final buffer holds `p.color` if it is not black, and is untouched (the
black point is skipped) otherwise. -/
theorem collect_eval (l : List MandelbrotPoint) :
    ∀ (buf : Buffer) (q : ℕ × ℕ), (l.map coordOf).Nodup →
      ∀ p, p ∈ l → coordOf p = q →
      collect l buf q = if p.color = (0, 0, 0) then buf q else p.color := by
  induction l with
  | nil => intro buf q _ p hp _; cases hp
  | cons a t ih =>
    intro buf q hnd p hp hq
    rw [List.map_cons, List.nodup_cons] at hnd
    rw [collect_cons]
    rcases List.mem_cons.mp hp with rfl | hpt
    · have hnone : ∀ p2 ∈ t, coordOf p2 ≠ q := by
        intro p2 hp2 hq2
        exact hnd.1 (hq ▸ hq2 ▸ List.mem_map_of_mem coordOf hp2)
      rw [collect_eval_of_not_mem t _ q hnone]
      show collectStep buf p q = if p.color = (0, 0, 0) then buf q else p.color
      unfold collectStep
      rcases eq_or_ne p.color (0, 0, 0) with hc | hc
      · rw [if_neg (not_not_intro hc), if_pos hc]
      · rw [if_pos hc, if_neg hc]
        show (if q = (p.x, p.y) then p.color else buf q) = p.color
        rw [if_pos (show q = (p.x, p.y) from hq.symm)]
    · have hne : coordOf a ≠ q := by
        intro hq2
        exact hnd.1 (hq2 ▸ hq ▸ List.mem_map_of_mem coordOf hpt)
      rw [ih (collectStep buf a) q hnd.2 p hpt hq]
      rcases eq_or_ne p.color (0, 0, 0) with hc | hc
      · rw [if_pos hc, if_pos hc]
        exact collectStep_ne buf a q hne
      · rw [if_neg hc, if_neg hc]

/-- The pixel coordinates of the dispatched points are exactly the grid
enumeration `(x, y)` for `x < width`, `y < height`. -/
theorem renderPoints_map_coord (w h : ℕ) (r cx cy : ℚ) (iters : ℕ) (mode : Bool) :
    (renderPoints w h r cx cy iters mode).map coordOf =
      (List.range w).flatMap fun x => (List.range h).map fun y => (x, y) := by
  simp [renderPoints, List.map_flatMap, List.map_map, coordOf, Function.comp_def]

/-- The grid enumeration has pairwise-distinct coordinates. -/
theorem renderPoints_coord_nodup (w h : ℕ) (r cx cy : ℚ) (iters : ℕ) (mode : Bool) :
    ((renderPoints w h r cx cy iters mode).map coordOf).Nodup := by
  rw [renderPoints_map_coord]
  apply List.nodup_flatMap.mpr
  constructor
  · intro x _
    exact (List.nodup_range h).map (fun y1 y2 e => congrArg Prod.snd e)
  · apply (List.pairwise_lt_range w).imp
    intro x1 x2 hlt a ha1 ha2
    obtain ⟨y1, _, rfl⟩ := List.mem_map.mp ha1
    obtain ⟨y2, _, e⟩ := List.mem_map.mp ha2
    exact absurd (congrArg Prod.fst e) (by simpa using hlt.ne')

/-- Every in-range pixel coordinate is carried by some dispatched point,
namely the one colored by the full per-pixel pipeline. -/
theorem mem_renderPoints (w h : ℕ) (r cx cy : ℚ) (iters : ℕ) (mode : Bool)
    (x y : ℕ) (hx : x < w) (hy : y < h) :
    (⟨x, y, get_mandelbrot_color (planeMap x y w h r cx cy) iters mode⟩ :
      MandelbrotPoint) ∈ renderPoints w h r cx cy iters mode := by
  unfold renderPoints
  refine List.mem_flatMap.mpr ⟨x, List.mem_range.mpr hx, ?_⟩
  exact List.mem_map.mpr ⟨y, List.mem_range.mpr hy, rfl⟩

/-- The number of `put_pixel` calls at the coordinate of a point `p0`, when
coordinates are pairwise distinct: one if `p0`'s color is not black, zero if
it is (the collector skips black points). -/
theorem writeCount_eq (l : List MandelbrotPoint) :
    ∀ (q : ℕ × ℕ), (l.map coordOf).Nodup →
      ∀ p0, p0 ∈ l → coordOf p0 = q →
      writeCount l q = if p0.color = (0, 0, 0) then 0 else 1 := by
  induction l with
  | nil => intro q _ p0 hp _; cases hp
  | cons a t ih =>
    intro q hnd p0 hp hq
    rw [List.map_cons, List.nodup_cons] at hnd
    rw [writeCount, List.countP_cons]
    rcases List.mem_cons.mp hp with rfl | hpt
    · have hzero : List.countP
          (fun p => decide ((p.x, p.y) = q ∧ p.color ≠ (0, 0, 0))) t = 0 := by
        rw [List.countP_eq_zero]
        intro p2 hp2
        simp only [decide_eq_true_eq, not_and]
        intro hq2 _
        exact hnd.1 (hq ▸ hq2 ▸ show coordOf p2 ∈ t.map coordOf from
          List.mem_map_of_mem coordOf hp2)
      rw [hzero]
      rcases eq_or_ne p0.color (0, 0, 0) with hc | hc
      · have hdec : decide ((p0.x, p0.y) = q ∧ p0.color ≠ (0, 0, 0)) = false :=
          decide_eq_false (fun hcon => hcon.2 hc)
        rw [hdec, if_neg Bool.false_ne_true, if_pos hc]
      · have hdec : decide ((p0.x, p0.y) = q ∧ p0.color ≠ (0, 0, 0)) = true :=
          decide_eq_true ⟨hq, hc⟩
        rw [hdec, if_pos rfl, if_neg hc]
    · have hne : coordOf a ≠ q := by
        intro hq2
        exact hnd.1 (hq2 ▸ hq ▸ List.mem_map_of_mem coordOf hpt)
      have hdec : decide ((a.x, a.y) = q ∧ a.color ≠ (0, 0, 0)) = false :=
        decide_eq_false (fun hcon => hne hcon.1)
      rw [hdec, if_neg Bool.false_ne_true, Nat.add_zero]
      rw [show List.countP
          (fun p => decide ((p.x, p.y) = q ∧ p.color ≠ (0, 0, 0))) t
          = writeCount t q from rfl]
      exact ih q hnd.2 p0 hpt hq

/-- On a list with pairwise-distinct coordinates, the coordinate of a member
point occurs exactly once. -/
theorem coordCount_eq_one (l : List MandelbrotPoint) :
    ∀ (q : ℕ × ℕ), (l.map coordOf).Nodup →
      ∀ p0, p0 ∈ l → coordOf p0 = q →
      l.countP (fun p => decide (coordOf p = q)) = 1 := by
  induction l with
  | nil => intro q _ p0 hp _; cases hp
  | cons a t ih =>
    intro q hnd p0 hp hq
    rw [List.map_cons, List.nodup_cons] at hnd
    rw [List.countP_cons]
    rcases List.mem_cons.mp hp with rfl | hpt
    · have hzero : List.countP (fun p => decide (coordOf p = q)) t = 0 := by
        rw [List.countP_eq_zero]
        intro p2 hp2
        simp only [decide_eq_true_eq]
        intro hq2
        exact hnd.1 (hq ▸ hq2 ▸ List.mem_map_of_mem coordOf hp2)
      rw [hzero, if_pos (decide_eq_true hq)]
    · have hne : coordOf a ≠ q := by
        intro hq2
        exact hnd.1 (hq2 ▸ hq ▸ List.mem_map_of_mem coordOf hpt)
      rw [if_neg (fun hd => hne (of_decide_eq_true hd)), Nat.add_zero]
      exact ih q hnd.2 p0 hpt hq

/-- Claim C3 (amended): exactly one `MandelbrotPoint` is produced per pixel
coordinate, but the collector does not write every coordinate exactly once:
it writes a coordinate exactly once when that pixel's pipeline color is not
black and zero times when it is black (the collector skips black points,
relying on the zero-initialized buffer); so writes are at most once per
coordinate, and the final buffer still holds every pixel's pipeline color. -/
theorem render_one_point_per_pixel (w h : ℕ) (r cx cy : ℚ) (iters : ℕ)
    (mode : Bool) (x y : ℕ) (hx : x < w) (hy : y < h) :
    (renderPoints w h r cx cy iters mode).countP
      (fun p => decide (coordOf p = (x, y))) = 1 ∧
    writeCount (renderPoints w h r cx cy iters mode) (x, y) =
      (if get_mandelbrot_color (planeMap x y w h r cx cy) iters mode = (0, 0, 0)
        then 0 else 1) ∧
    writeCount (renderPoints w h r cx cy iters mode) (x, y) ≤ 1 ∧
    collect (renderPoints w h r cx cy iters mode) initBuffer (x, y) =
      get_mandelbrot_color (planeMap x y w h r cx cy) iters mode := by
  have hnd := renderPoints_coord_nodup w h r cx cy iters mode
  have hmem := mem_renderPoints w h r cx cy iters mode x y hx hy
  have hq : coordOf (⟨x, y,
      get_mandelbrot_color (planeMap x y w h r cx cy) iters mode⟩ :
      MandelbrotPoint) = (x, y) := rfl
  refine ⟨?_, ?_, ?_, ?_⟩
  · exact coordCount_eq_one _ (x, y) hnd _ hmem hq
  · exact writeCount_eq _ (x, y) hnd _ hmem hq
  · rw [writeCount_eq _ (x, y) hnd _ hmem hq]
    split
    · omega
    · omega
  · rw [collect_eval _ initBuffer (x, y) hnd _ hmem hq]
    rcases eq_or_ne (get_mandelbrot_color (planeMap x y w h r cx cy) iters mode)
      (0, 0, 0) with hb | hb
    · rw [if_pos hb, hb]
      rfl
    · rw [if_neg hb]

/-- Witness for the amended C3 in the 1×1 viewport with radius `1/2`,
center `0`, budget `1`, grayscale: the only pixel is in-set black, produced
once, written zero times, and the final buffer still shows its color. -/
theorem render_one_point_per_pixel_witness :
    (renderPoints 1 1 (1 / 2) 0 0 1 false).countP
      (fun p => decide (coordOf p = (0, 0))) = 1 ∧
    writeCount (renderPoints 1 1 (1 / 2) 0 0 1 false) (0, 0) =
      (if get_mandelbrot_color (planeMap 0 0 1 1 (1 / 2) 0 0) 1 false = (0, 0, 0)
        then 0 else 1) ∧
    writeCount (renderPoints 1 1 (1 / 2) 0 0 1 false) (0, 0) ≤ 1 ∧
    collect (renderPoints 1 1 (1 / 2) 0 0 1 false) initBuffer (0, 0) =
      get_mandelbrot_color (planeMap 0 0 1 1 (1 / 2) 0 0) 1 false :=
  render_one_point_per_pixel 1 1 (1 / 2) 0 0 1 false 0 0 (by norm_num) (by norm_num)

/-- Counterexample to C3 as stated: in the 1×1 render of the viewport with
radius `1/2` centered at the origin under budget `1`, the single pixel
`(0, 0)` is produced (its coordinate appears exactly once among the rendered
points) but its color is the in-set black sentinel, so the collector calls
`put_pixel` on coordinate `(0, 0)` zero times — not exactly once. -/
theorem collector_skips_black_counterexample :
    (renderPoints 1 1 (1 / 2) 0 0 1 false).map coordOf = [(0, 0)] ∧
    writeCount (renderPoints 1 1 (1 / 2) 0 0 1 false) (0, 0) = 0 := by
  constructor
  · rw [renderPoints_map_coord]
    decide
  · norm_num [writeCount, renderPoints, List.range_succ, get_mandelbrot_color,
      in_mandelbrot_set, inMandelbrotSetGo, planeMap]

/-- Claim C7: the final image is independent of the order in which rendered
points arrive at the collector (worker count and scheduling only change this
order): collecting any permutation of the rendered-point list produces the
identical buffer, because each coordinate is carried by exactly one point. -/
theorem collector_order_independent (w h : ℕ) (r cx cy : ℚ) (iters : ℕ)
    (mode : Bool) (l : List MandelbrotPoint)
    (hperm : l.Perm (renderPoints w h r cx cy iters mode)) :
    collect l initBuffer = collect (renderPoints w h r cx cy iters mode) initBuffer := by
  funext q
  have hndR := renderPoints_coord_nodup w h r cx cy iters mode
  have hndL : (l.map coordOf).Nodup := ((hperm.map coordOf).nodup_iff).mpr hndR
  by_cases hex : ∃ p, p ∈ renderPoints w h r cx cy iters mode ∧ coordOf p = q
  · obtain ⟨p, hp, hq⟩ := hex
    rw [collect_eval l initBuffer q hndL p (hperm.mem_iff.mpr hp) hq,
      collect_eval _ initBuffer q hndR p hp hq]
  · push_neg at hex
    rw [collect_eval_of_not_mem l initBuffer q (fun p hp => hex p (hperm.subset hp)),
      collect_eval_of_not_mem _ initBuffer q (fun p hp => hex p hp)]

/-- Witness for C7: collecting the 2×1 render in reversed arrival order
yields the same buffer as dispatch order. -/
theorem collector_order_independent_witness :
    collect ((renderPoints 2 1 (1 / 2) 0 0 1 false).reverse) initBuffer =
      collect (renderPoints 2 1 (1 / 2) 0 0 1 false) initBuffer :=
  collector_order_independent 2 1 (1 / 2) 0 0 1 false _ (List.reverse_perm _)

end Mandelbrot
